import Mathlib

/-!
Verification of the ring buffer implementation in ring_buffer.c (v1.3.1).

The C code is shallowly embedded: the `ring_buffer` struct becomes a Lean
structure whose `array_addr` field holds the contents of the externally
allocated byte array, machine integers become `Nat` (explicit `% 2 ^ 32`
or `% 2 ^ 8` is inserted exactly where the C types truncate and where that
truncation is observable), and every C function becomes a pure function
returning its result together with the post state.  Out-of-bounds pointer
accesses of the C code have no meaning in the embedding; every theorem
below therefore carries the well-formedness assumptions under which the C
code stays within its array.
-/

/-- Result code RING_BUFFER_SUCCESS from ring_buffer.h. -/
def RING_BUFFER_SUCCESS : Nat := 0x01

/-- Result code RING_BUFFER_ERROR from ring_buffer.h. -/
def RING_BUFFER_ERROR : Nat := 0x00

/-- The ring_buffer struct of ring_buffer.h.  The C field array_addr is a
pointer to an externally owned uint8_t array; here the field holds the
contents of that array.  All uint32_t fields become Nat. -/
structure ring_buffer where
  head : Nat
  tail : Nat
  lenght : Nat
  array_addr : List Nat
  max_length : Nat
deriving Repr, DecidableEq

/-- Byte-wise copy: models the C memcpy calls of ring_buffer.c, which copy
a source block to consecutive destination indices (no wrap-around inside a
single memcpy).  Writing past the end of the list is a no-op in the model;
the theorems only use it with in-bounds ranges, matching the C code. -/
def memcpy : List Nat → Nat → List Nat → List Nat
  | dst, _, [] => dst
  | dst, pos, b :: rest => memcpy (dst.set pos b) (pos + 1) rest

/-- Ring_Buffer_Init: resets the bookkeeping fields, binds the array and
its size, and fails when the size is below two. -/
def Ring_Buffer_Init (buffer_addr : List Nat) (buffer_size : Nat) : Nat × ring_buffer :=
  (if buffer_size < 2 then RING_BUFFER_ERROR else RING_BUFFER_SUCCESS,
    { head := 0, tail := 0, lenght := 0, array_addr := buffer_addr, max_length := buffer_size })

/-- Ring_Buffer_Delete.  The C parameter lenght is uint8_t, hence the
entry truncation `% 256`.  The C expressions head + lenght,
max_length - head and lenght - (max_length - head) are computed in
uint32, so each carries an explicit `% 2 ^ 32` (written with
`+ 2 ^ 32` before a subtraction, which is exact for uint32-valued
fields); the wrap of head + lenght is observable near
max_length = 2 ^ 32, see the C6 counterexample.  The final
lenght -= lenght cannot underflow because of the guard. -/
def Ring_Buffer_Delete (rb : ring_buffer) (lenght_arg : Nat) : Nat × ring_buffer :=
  if rb.lenght < lenght_arg % 256 then (RING_BUFFER_ERROR, rb)
  else if (rb.head + lenght_arg % 256) % 4294967296 ≥ rb.max_length then
    (RING_BUFFER_SUCCESS,
      { rb with head := (lenght_arg % 256 + 4294967296
                  - (rb.max_length + 4294967296 - rb.head) % 4294967296) % 4294967296,
                lenght := rb.lenght - lenght_arg % 256 })
  else
    (RING_BUFFER_SUCCESS,
      { rb with head := (rb.head + lenght_arg % 256) % 4294967296,
                lenght := rb.lenght - lenght_arg % 256 })

/-- Ring_Buffer_Write_Byte.  The rb_data parameter is uint8_t (`% 256`).
The C expression max_length - 1 is uint32 subtraction; it agrees with Nat
subtraction whenever max_length is nonzero, which well-formedness
guarantees. -/
def Ring_Buffer_Write_Byte (rb : ring_buffer) (rb_data : Nat) : Nat × ring_buffer :=
  if rb.lenght = rb.max_length - 1 then (RING_BUFFER_ERROR, rb)
  else
    (RING_BUFFER_SUCCESS,
      { rb with array_addr := rb.array_addr.set rb.tail (rb_data % 256),
                lenght := rb.lenght + 1,
                tail := if rb.tail + 1 > rb.max_length - 1 then 0 else rb.tail + 1 })

/-- Ring_Buffer_Read_Byte.  When the buffer is empty the C function
returns an uninitialized byte and leaves the state alone; the model
returns 0 in that case (only the state component matters for the
claims). -/
def Ring_Buffer_Read_Byte (rb : ring_buffer) : Nat × ring_buffer :=
  if rb.lenght ≠ 0 then
    (rb.array_addr.getD rb.head 0,
      { rb with lenght := rb.lenght - 1,
                head := if rb.head + 1 > rb.max_length - 1 then 0 else rb.head + 1 })
  else (0, rb)

/-- Ring_Buffer_Write_String.  The C code computes write_size_a and
write_size_b and branches on write_size_b being nonzero; write_size_b is
nonzero exactly when max_length - tail < write_lenght, so the model
branches on that condition directly.  The source block is read as uint8_t
data (`% 256` on each element); `take write_lenght` models that exactly
write_lenght bytes are read from input_addr. -/
def Ring_Buffer_Write_String (rb : ring_buffer) (input_addr : List Nat)
    (write_lenght : Nat) : Nat × ring_buffer :=
  if rb.lenght + write_lenght > rb.max_length then (RING_BUFFER_ERROR, rb)
  else if rb.max_length - rb.tail < write_lenght then
    (RING_BUFFER_SUCCESS,
      { rb with
        array_addr :=
          memcpy
            (memcpy rb.array_addr rb.tail
              (((input_addr.take write_lenght).map fun b => b % 256).take
                (rb.max_length - rb.tail)))
            0
            ((((input_addr.take write_lenght).map fun b => b % 256).drop
                (rb.max_length - rb.tail)).take
              (write_lenght - (rb.max_length - rb.tail))),
        lenght := rb.lenght + write_lenght,
        tail := write_lenght - (rb.max_length - rb.tail) })
  else
    (RING_BUFFER_SUCCESS,
      { rb with
        array_addr :=
          memcpy rb.array_addr rb.tail ((input_addr.take write_lenght).map fun b => b % 256),
        lenght := rb.lenght + write_lenght,
        tail := if rb.tail + write_lenght = rb.max_length then 0 else rb.tail + write_lenght })

/-- Ring_Buffer_Read_String.  Returns the C result code, the bytes copied
to output_addr, and the post state.  As in the write case, Read_size_b is
nonzero exactly when read_lenght > max_length - head. -/
def Ring_Buffer_Read_String (rb : ring_buffer) (read_lenght : Nat) :
    Nat × List Nat × ring_buffer :=
  if read_lenght > rb.lenght then (RING_BUFFER_ERROR, [], rb)
  else if read_lenght > rb.max_length - rb.head then
    (RING_BUFFER_SUCCESS,
      (rb.array_addr.drop rb.head).take (rb.max_length - rb.head) ++
        rb.array_addr.take (read_lenght - (rb.max_length - rb.head)),
      { rb with lenght := rb.lenght - read_lenght,
                head := read_lenght - (rb.max_length - rb.head) })
  else
    (RING_BUFFER_SUCCESS, (rb.array_addr.drop rb.head).take read_lenght,
      { rb with lenght := rb.lenght - read_lenght,
                head := if rb.head + read_lenght = rb.max_length then 0
                        else rb.head + read_lenght })

/-- Ring_Buffer_Insert_Keyword, little-endian host branch (the branch the
file compiles on the usual targets): keyword_byte is filled with the four
bytes of the uint32 keyword from most significant to least significant,
and the first keyword_lenght of them are handed to block write.  keyword
is uint32 (`% 2 ^ 32`), keyword_lenght is uint8_t (`% 256`).  For
keyword_lenght above four the C code reads past the four-byte scratch
array (undefined behavior); the model is only used with lengths up to
four. -/
def Ring_Buffer_Insert_Keyword (rb : ring_buffer) (keyword : Nat)
    (keyword_lenght : Nat) : Nat × ring_buffer :=
  Ring_Buffer_Write_String rb
    [keyword % 4294967296 / 16777216 % 256,
     keyword % 4294967296 / 65536 % 256,
     keyword % 4294967296 / 256 % 256,
     keyword % 4294967296 % 256]
    (keyword_lenght % 256)

/-- Loop body of Ring_Buffer_Get_Word.  The C loop runs i = 1 .. L and
accumulates byte << (8 * (L - i)); here r counts the remaining
iterations, so the shift amount of the current byte is 8 * (r - 1) after
the decrement, i.e. 8 * r before it.  The temporary head pointer wraps
exactly as in the source. -/
def getWordLoop (data : List Nat) (max_length : Nat) : Nat → Nat → Nat → Nat
  | 0, _, acc => acc
  | r + 1, p, acc =>
    getWordLoop data max_length r
      (if p + 1 > max_length - 1 then 0 else p + 1)
      (acc ||| ((data.getD p 0) <<< (8 * r)))

/-- Ring_Buffer_Get_Word: reads read_lenght bytes forward from the given
offset, wrapping at the end of the array, and integrates them most
significant byte first.  The C function takes the handle by pointer and
never writes through it, so the model returns the state unchanged.  For
read_lenght at most four and byte-valued array contents the uint32
accumulator cannot overflow, so no truncation is inserted. -/
def Ring_Buffer_Get_Word (rb : ring_buffer) (head : Nat) (read_lenght : Nat) :
    Nat × ring_buffer :=
  (getWordLoop rb.array_addr rb.max_length read_lenght head 0, rb)

/-- Scan loop of Ring_Buffer_Find_Keyword.  fuel is the number of loop
iterations still allowed, i.e. max_find_lenght + 1 - distance; the C
condition distance <= max_find_lenght fails exactly when fuel is zero.
Returning none models falling through to `return RING_BUFFER_ERROR`. -/
def findLoop (rb : ring_buffer) (keyword trigger_word keyword_lenght : Nat) :
    Nat → Nat → Nat → Option Nat
  | 0, _, _ => none
  | fuel + 1, find_head, distance =>
    if rb.array_addr.getD find_head 0 = trigger_word ∧
        (Ring_Buffer_Get_Word rb find_head keyword_lenght).1 = keyword then
      some distance
    else
      findLoop rb keyword trigger_word keyword_lenght fuel
        (if find_head + 1 > rb.max_length - 1 then 0 else find_head + 1)
        (distance + 1)

/-- Entry computation of Ring_Buffer_Find_Keyword.  max_find_lenght is the
uint32 value of lenght - keyword_lenght + 1, which underflows when lenght
is smaller than keyword_lenght - 1; the formula below reproduces that
uint32 wrap-around exactly.  trigger_word is the uint8 truncation of
keyword >> ((keyword_lenght - 1) * 8).  (For keyword_lenght = 0 the C
shift count is negative, which is undefined behavior; the claims only use
positive lengths.) -/
def findLoopInit (rb : ring_buffer) (keyword keyword_lenght : Nat) : Option Nat :=
  findLoop rb (keyword % 4294967296)
    (((keyword % 4294967296) >>> ((keyword_lenght % 256 - 1) * 8)) % 256)
    (keyword_lenght % 256)
    ((rb.lenght % 4294967296 + 4294967296 + 1 - keyword_lenght % 256) % 4294967296)
    rb.head 1

/-- Ring_Buffer_Find_Keyword: runs the scan and returns the matched
distance, or RING_BUFFER_ERROR when the scan exhausts its range.  The C
function never writes through the handle, so the state is returned
unchanged. -/
def Ring_Buffer_Find_Keyword (rb : ring_buffer) (keyword : Nat)
    (keyword_lenght : Nat) : Nat × ring_buffer :=
  ((findLoopInit rb keyword keyword_lenght).getD RING_BUFFER_ERROR, rb)

/-- Ring_Buffer_Get_Length. -/
def Ring_Buffer_Get_Length (rb : ring_buffer) : Nat := rb.lenght

/-- Ring_Buffer_Get_FreeSize. -/
def Ring_Buffer_Get_FreeSize (rb : ring_buffer) : Nat := rb.max_length - rb.lenght

/-- Logical content of the buffer: the lenght stored bytes read forward
from head with wrap-around.  This is the sequence a full drain by
Ring_Buffer_Read_Byte would deliver. -/
def content (rb : ring_buffer) : List Nat :=
  (List.range rb.lenght).map fun k => rb.array_addr.getD ((rb.head + k) % rb.max_length) 0

/-- Big-endian byte list of the low 8 * L bits of a value: byte i is
kw >> (8 * (L - 1 - i)), most significant first. -/
def encodeBE (kw L : Nat) : List Nat :=
  (List.range L).map fun i => kw / 2 ^ (8 * (L - 1 - i)) % 256

/-- Value of a byte list read most significant byte first. -/
def beVal (bs : List Nat) : Nat := bs.foldl (fun a b => a * 256 + b) 0

/-- Well-formed buffer states: the states produced by a successful init
bound to a uint8_t array and maintained by the C API while the stored
length stays within the array (C1 exhibits the way the code itself can
break the last conjunct, so well-formedness is assumed per state, never
derived globally). -/
def wf (rb : ring_buffer) : Prop :=
  2 ≤ rb.max_length ∧ rb.max_length < 4294967296 ∧
    rb.head < rb.max_length ∧ rb.tail < rb.max_length ∧
    rb.lenght ≤ rb.max_length ∧ rb.tail = (rb.head + rb.lenght) % rb.max_length ∧
    rb.array_addr.length = rb.max_length ∧ ∀ b ∈ rb.array_addr, b < 256

instance (rb : ring_buffer) : Decidable (wf rb) := by
  unfold wf; infer_instance

/-- A keyword occurs in the stored bytes at 0-based offset j when the L
bytes of the content starting there are its big-endian encoding. -/
def occursAt (rb : ring_buffer) (kw L j : Nat) : Prop :=
  j + L ≤ rb.lenght ∧ ((content rb).drop j).take L = encodeBE kw L

instance (rb : ring_buffer) (kw L j : Nat) : Decidable (occursAt rb kw L j) := by
  unfold occursAt; infer_instance

example : (Ring_Buffer_Init (List.replicate 4 0) 4).1 = RING_BUFFER_SUCCESS := by decide

example :
    (Ring_Buffer_Write_String (Ring_Buffer_Init (List.replicate 4 0) 4).2 [7, 8, 9] 3).2.array_addr
      = [7, 8, 9, 0] := by decide

example :
    (Ring_Buffer_Find_Keyword
      { head := 0, tail := 4, lenght := 4, array_addr := [1, 2, 171, 205, 0, 0, 0, 0],
        max_length := 8 } 43981 2).1 = 3 := by decide

/-- Claim C1: the capacity invariant fails on the code.  With capacity 2,
a block write of two bytes is accepted (its guard only rejects
lenght + write_lenght > max_length), leaving lenght = 2 > capacity - 1;
after that the byte write guard lenght == max_length - 1 no longer
triggers, so one more byte is accepted and lenght reaches 3.  With
capacity 3, a block write issued when lenght == capacity - 1 also
succeeds instead of failing. -/
theorem C1_capacity_invariant_violated :
    (Ring_Buffer_Write_String (Ring_Buffer_Init (List.replicate 2 0) 2).2 [1, 2] 2).1
        = RING_BUFFER_SUCCESS ∧
    (Ring_Buffer_Write_String (Ring_Buffer_Init (List.replicate 2 0) 2).2 [1, 2] 2).2.lenght
        = 2 ∧
    ¬ ((Ring_Buffer_Write_String (Ring_Buffer_Init (List.replicate 2 0) 2).2
          [1, 2] 2).2.lenght ≤ 2 - 1) ∧
    (Ring_Buffer_Write_Byte
        (Ring_Buffer_Write_String (Ring_Buffer_Init (List.replicate 2 0) 2).2 [1, 2] 2).2
        3).1 = RING_BUFFER_SUCCESS ∧
    (Ring_Buffer_Write_Byte
        (Ring_Buffer_Write_String (Ring_Buffer_Init (List.replicate 2 0) 2).2 [1, 2] 2).2
        3).2.lenght = 3 ∧
    (Ring_Buffer_Write_Byte
        (Ring_Buffer_Write_Byte (Ring_Buffer_Init (List.replicate 3 0) 3).2 10).2
        11).2.lenght = 3 - 1 ∧
    (Ring_Buffer_Write_String
        (Ring_Buffer_Write_Byte
          (Ring_Buffer_Write_Byte (Ring_Buffer_Init (List.replicate 3 0) 3).2 10).2
          11).2
        [12] 1).1 = RING_BUFFER_SUCCESS := by
  decide

/-- Claim C2 counterexample: in the concrete scenario of the spec
(13 bytes, the four-byte keyword 0xCCFB22AA, 9 bytes, the keyword again)
Ring_Buffer_Find_Keyword returns 14, the 1-based distance to the FIRST
byte of the match, not 17 = 13 + 4 as the claim states. -/
theorem C2_counterexample_scenario_returns_14 :
    (Ring_Buffer_Find_Keyword
      (Ring_Buffer_Insert_Keyword
        (Ring_Buffer_Write_String
          (Ring_Buffer_Insert_Keyword
            (Ring_Buffer_Write_String (Ring_Buffer_Init (List.replicate 256 0) 256).2
              [65, 66, 67, 68, 69, 70, 71, 72, 73, 74, 75, 13, 10] 13).2
            0xCCFB22AA 4).2
          [97, 98, 99, 100, 101, 102, 103, 13, 10] 9).2
        0xCCFB22AA 4).2
      0xCCFB22AA 4).1 = 14 ∧ (14 : Nat) ≠ 13 + 4 := by
  exact ⟨by decide, by decide⟩

/-- Claim C3 counterexample: inserting keyword 0xAA with length 1 into a
fresh buffer appends the byte 0x00 (the MOST significant byte of the
uint32 value), not the least significant byte 0xAA the claim requires. -/
theorem C3_counterexample_insert_byte :
    content (Ring_Buffer_Insert_Keyword (Ring_Buffer_Init (List.replicate 4 0) 4).2 170 1).2
        = [0] ∧
    ([0] : List Nat) ≠ [170] := by
  exact ⟨by decide, by decide⟩

/-- Claim C4: when lenght < keyword_lenght - 1 the uint32 computation
lenght - keyword_lenght + 1 underflows, so instead of failing the scan
runs over stale array bytes and can return a bogus match distance.  Here
a freshly initialized, empty buffer whose backing array still holds the
bytes 0xAB 0xCD yields distance 1 for keyword 0xABCD of length 2. -/
theorem C4_underflow_scan_returns_match :
    (Ring_Buffer_Find_Keyword (Ring_Buffer_Init [171, 205, 0, 0] 4).2 43981 2).1 = 1 ∧
    (Ring_Buffer_Init [171, 205, 0, 0] 4).2.lenght < 2 ∧
    (1 : Nat) ≠ RING_BUFFER_ERROR := by
  refine ⟨by decide, by decide, by decide⟩

/-- Claim C5 counterexample: on a buffer already holding one unread byte
(value 9), writing the block [5] and then reading one byte returns the
older byte 9, not the block just written. -/
theorem C5_counterexample_nonempty :
    wf { head := 0, tail := 1, lenght := 1, array_addr := [9, 0, 0, 0], max_length := 4 } ∧
    (Ring_Buffer_Write_String
        { head := 0, tail := 1, lenght := 1, array_addr := [9, 0, 0, 0], max_length := 4 }
        [5] 1).1 = RING_BUFFER_SUCCESS ∧
    (Ring_Buffer_Read_String
        (Ring_Buffer_Write_String
          { head := 0, tail := 1, lenght := 1, array_addr := [9, 0, 0, 0], max_length := 4 }
          [5] 1).2 1).2.1 = [9] ∧
    ([9] : List Nat) ≠ [5] := by
  refine ⟨by decide, by decide, by decide, by decide⟩

/-- Claim C8 counterexample: Ring_Buffer_Insert_Keyword performs no
validation of keyword_lenght; with keyword_lenght = 0 it returns
RING_BUFFER_SUCCESS (writing nothing) instead of failing. -/
theorem C8_counterexample_len0_succeeds :
    (Ring_Buffer_Insert_Keyword (Ring_Buffer_Init (List.replicate 4 0) 4).2 170 0).1
        = RING_BUFFER_SUCCESS ∧
    RING_BUFFER_SUCCESS ≠ RING_BUFFER_ERROR := by
  exact ⟨by decide, by decide⟩

/-- Auxiliary: any distance returned by the scan loop is at least the
distance counter it started from. -/
theorem findLoop_ge (rb : ring_buffer) (kw tw L : Nat) :
    ∀ fuel fh dist d, findLoop rb kw tw L fuel fh dist = some d → dist ≤ d := by
  intro fuel
  induction fuel with
  | zero => intro fh dist d h; simp [findLoop] at h
  | succ n ih =>
    intro fh dist d h
    rw [findLoop] at h
    split at h
    · exact Nat.le_of_eq (Option.some.inj h)
    · exact Nat.le_of_succ_le (ih _ _ _ h)

/-- Claim C10: a successful keyword search always returns a distance of at
least 1, so the success range never collides with the failure sentinel
RING_BUFFER_ERROR = 0. -/
theorem C10_success_distance_positive (rb : ring_buffer) (kw L d : Nat)
    (h : findLoopInit rb kw L = some d) :
    1 ≤ d ∧ (Ring_Buffer_Find_Keyword rb kw L).1 = d ∧
      (Ring_Buffer_Find_Keyword rb kw L).1 ≠ RING_BUFFER_ERROR := by
  unfold findLoopInit at h
  have h1 : 1 ≤ d := findLoop_ge rb _ _ _ _ _ _ _ h
  refine ⟨h1, ?_, ?_⟩
  · unfold Ring_Buffer_Find_Keyword findLoopInit
    rw [h]
    rfl
  · unfold Ring_Buffer_Find_Keyword findLoopInit
    rw [h]
    simp only [Option.getD_some, RING_BUFFER_ERROR]
    omega

/-- Witness for C10 at a concrete buffer holding the single byte 7. -/
theorem C10_witness :
    1 ≤ 1 ∧
    (Ring_Buffer_Find_Keyword
        { head := 0, tail := 1, lenght := 1, array_addr := [7, 0], max_length := 2 } 7 1).1
      = 1 ∧
    (Ring_Buffer_Find_Keyword
        { head := 0, tail := 1, lenght := 1, array_addr := [7, 0], max_length := 2 } 7 1).1
      ≠ RING_BUFFER_ERROR :=
  C10_success_distance_positive
    { head := 0, tail := 1, lenght := 1, array_addr := [7, 0], max_length := 2 } 7 1 1
    (by decide)

/-- Claim C9: neither the keyword search nor its word-reconstruction
helper modifies the buffer state; both only read from it. -/
theorem C9_find_keyword_pure (rb : ring_buffer) (kw L h len : Nat) :
    (Ring_Buffer_Find_Keyword rb kw L).2 = rb ∧ (Ring_Buffer_Get_Word rb h len).2 = rb :=
  ⟨rfl, rfl⟩

/-- Claim C7: every operation that reports failure returns the buffer
state it was given, unchanged; the failure checks all precede any
mutation (read_byte signals emptiness only through its unspecified return
byte, so its conjunct is phrased on the empty-buffer condition). -/
theorem C7_failure_leaves_state (rb : ring_buffer) (d n kw L len : Nat) (input : List Nat) :
    ((Ring_Buffer_Write_Byte rb d).1 = RING_BUFFER_ERROR →
      (Ring_Buffer_Write_Byte rb d).2 = rb) ∧
    (rb.lenght = 0 → (Ring_Buffer_Read_Byte rb).2 = rb) ∧
    ((Ring_Buffer_Write_String rb input len).1 = RING_BUFFER_ERROR →
      (Ring_Buffer_Write_String rb input len).2 = rb) ∧
    ((Ring_Buffer_Read_String rb n).1 = RING_BUFFER_ERROR →
      (Ring_Buffer_Read_String rb n).2.2 = rb) ∧
    ((Ring_Buffer_Delete rb n).1 = RING_BUFFER_ERROR →
      (Ring_Buffer_Delete rb n).2 = rb) ∧
    ((Ring_Buffer_Insert_Keyword rb kw L).1 = RING_BUFFER_ERROR →
      (Ring_Buffer_Insert_Keyword rb kw L).2 = rb) ∧
    (Ring_Buffer_Find_Keyword rb kw L).2 = rb := by
  refine ⟨?_, ?_, ?_, ?_, ?_, ?_, rfl⟩
  · unfold Ring_Buffer_Write_Byte
    split
    · intro _; rfl
    · intro hc; simp [RING_BUFFER_SUCCESS, RING_BUFFER_ERROR] at hc
  · intro h0; unfold Ring_Buffer_Read_Byte; simp [h0]
  · unfold Ring_Buffer_Write_String
    split
    · intro _; rfl
    · split <;> (intro hc; simp [RING_BUFFER_SUCCESS, RING_BUFFER_ERROR] at hc)
  · unfold Ring_Buffer_Read_String
    split
    · intro _; rfl
    · split <;> (intro hc; simp [RING_BUFFER_SUCCESS, RING_BUFFER_ERROR] at hc)
  · unfold Ring_Buffer_Delete
    split
    · intro _; rfl
    · split <;> (intro hc; simp [RING_BUFFER_SUCCESS, RING_BUFFER_ERROR] at hc)
  · unfold Ring_Buffer_Insert_Keyword Ring_Buffer_Write_String
    split
    · intro _; rfl
    · split <;> (intro hc; simp [RING_BUFFER_SUCCESS, RING_BUFFER_ERROR] at hc)

/-- Witness for C7: each failing operation applied at a concrete state
where its guard triggers. -/
theorem C7_witness :
    (Ring_Buffer_Write_Byte
        { head := 0, tail := 1, lenght := 1, array_addr := [7, 0], max_length := 2 } 5).2
      = { head := 0, tail := 1, lenght := 1, array_addr := [7, 0], max_length := 2 } ∧
    (Ring_Buffer_Read_Byte
        { head := 0, tail := 0, lenght := 0, array_addr := [0, 0], max_length := 2 }).2
      = { head := 0, tail := 0, lenght := 0, array_addr := [0, 0], max_length := 2 } ∧
    (Ring_Buffer_Write_String
        { head := 0, tail := 0, lenght := 0, array_addr := [0, 0], max_length := 2 }
        [1, 2, 3] 3).2
      = { head := 0, tail := 0, lenght := 0, array_addr := [0, 0], max_length := 2 } ∧
    (Ring_Buffer_Read_String
        { head := 0, tail := 0, lenght := 0, array_addr := [0, 0], max_length := 2 } 1).2.2
      = { head := 0, tail := 0, lenght := 0, array_addr := [0, 0], max_length := 2 } ∧
    (Ring_Buffer_Delete
        { head := 0, tail := 0, lenght := 0, array_addr := [0, 0], max_length := 2 } 1).2
      = { head := 0, tail := 0, lenght := 0, array_addr := [0, 0], max_length := 2 } ∧
    (Ring_Buffer_Insert_Keyword
        { head := 0, tail := 0, lenght := 0, array_addr := [0, 0], max_length := 2 } 7 3).2
      = { head := 0, tail := 0, lenght := 0, array_addr := [0, 0], max_length := 2 } ∧
    (Ring_Buffer_Find_Keyword
        { head := 0, tail := 0, lenght := 0, array_addr := [0, 0], max_length := 2 } 7 1).2
      = { head := 0, tail := 0, lenght := 0, array_addr := [0, 0], max_length := 2 } :=
  ⟨(C7_failure_leaves_state
      { head := 0, tail := 1, lenght := 1, array_addr := [7, 0], max_length := 2 }
      5 0 0 0 0 []).1 (by decide),
   (C7_failure_leaves_state
      { head := 0, tail := 0, lenght := 0, array_addr := [0, 0], max_length := 2 }
      0 0 0 0 0 []).2.1 (by decide),
   (C7_failure_leaves_state
      { head := 0, tail := 0, lenght := 0, array_addr := [0, 0], max_length := 2 }
      0 0 0 0 3 [1, 2, 3]).2.2.1 (by decide),
   (C7_failure_leaves_state
      { head := 0, tail := 0, lenght := 0, array_addr := [0, 0], max_length := 2 }
      0 1 0 0 0 []).2.2.2.1 (by decide),
   (C7_failure_leaves_state
      { head := 0, tail := 0, lenght := 0, array_addr := [0, 0], max_length := 2 }
      0 1 0 0 0 []).2.2.2.2.1 (by decide),
   (C7_failure_leaves_state
      { head := 0, tail := 0, lenght := 0, array_addr := [0, 0], max_length := 2 }
      0 0 7 3 0 []).2.2.2.2.2.1 (by decide),
   (C7_failure_leaves_state
      { head := 0, tail := 0, lenght := 0, array_addr := [0, 0], max_length := 2 }
      0 0 7 1 0 []).2.2.2.2.2.2⟩

/-- Claim C8 (amended): keyword_lenght is not validated.  An insert with
keyword_lenght = 0 succeeds and changes nothing whenever the stored
length does not already exceed the array (lengths above four leave the
defined domain of the C code altogether). -/
theorem C8_insert_len0_no_validation (rb : ring_buffer) (kw : Nat)
    (hl : rb.lenght ≤ rb.max_length) (ht : rb.tail < rb.max_length) :
    (Ring_Buffer_Insert_Keyword rb kw 0).1 = RING_BUFFER_SUCCESS ∧
    (Ring_Buffer_Insert_Keyword rb kw 0).2 = rb := by
  unfold Ring_Buffer_Insert_Keyword Ring_Buffer_Write_String
  have h1 : ¬ (rb.lenght + 0 % 256 > rb.max_length) := by simpa using hl
  have h2 : ¬ (rb.max_length - rb.tail < 0 % 256) := by simp
  rw [if_neg h1, if_neg h2]
  have h3 : ¬ (rb.tail + 0 % 256 = rb.max_length) := by
    simpa using Nat.ne_of_lt ht
  rw [if_neg h3]
  simp [memcpy]

/-- Witness for C8 at a freshly initialized capacity-4 buffer. -/
theorem C8_witness :
    (Ring_Buffer_Insert_Keyword (Ring_Buffer_Init (List.replicate 4 0) 4).2 99 0).1
        = RING_BUFFER_SUCCESS ∧
    (Ring_Buffer_Insert_Keyword (Ring_Buffer_Init (List.replicate 4 0) 4).2 99 0).2
        = (Ring_Buffer_Init (List.replicate 4 0) 4).2 :=
  C8_insert_len0_no_validation (Ring_Buffer_Init (List.replicate 4 0) 4).2 99
    (by decide) (by decide)

/-- Claim C6 counterexample: at the uint32 boundary the wrapped addition
head + lenght in Ring_Buffer_Delete falls below max_length, so delete
takes the non-wrap branch and lands on a different head pointer than the
block read of the same length.  Neither state update reads the backing
array, so the array is elided here; head, lenght and max_length are the
uint32 values of the diverging C state (max_length = 2 ^ 32 - 1,
head = 2 ^ 32 - 2, n = 255): C delete yields head 253, the read yields
head 254. -/
theorem C6_counterexample_uint32_wrap :
    (Ring_Buffer_Delete
      { head := 4294967294, tail := 299, lenght := 300, array_addr := [],
        max_length := 4294967295 } 255).1 = RING_BUFFER_SUCCESS ∧
    (Ring_Buffer_Read_String
      { head := 4294967294, tail := 299, lenght := 300, array_addr := [],
        max_length := 4294967295 } 255).1 = RING_BUFFER_SUCCESS ∧
    (Ring_Buffer_Delete
      { head := 4294967294, tail := 299, lenght := 300, array_addr := [],
        max_length := 4294967295 } 255).2.head = 253 ∧
    (Ring_Buffer_Read_String
      { head := 4294967294, tail := 299, lenght := 300, array_addr := [],
        max_length := 4294967295 } 255).2.2.head = 254 ∧
    (Ring_Buffer_Delete
      { head := 4294967294, tail := 299, lenght := 300, array_addr := [],
        max_length := 4294967295 } 255).2
      ≠ (Ring_Buffer_Read_String
      { head := 4294967294, tail := 299, lenght := 300, array_addr := [],
        max_length := 4294967295 } 255).2.2 := by
  refine ⟨by decide, by decide, by decide, by decide, ?_⟩
  intro hcon
  have h1 := congrArg ring_buffer.head hcon
  simp only [Ring_Buffer_Delete, Ring_Buffer_Read_String] at h1
  exact absurd h1 (by decide)

/-- Claim C6 (amended): deleting n bytes is exactly a block read of n
bytes with the output thrown away - both succeed under the same
condition n ≤ lenght and produce identical post states - for every
well-formed state in which the uint32 sum head + n does not wrap
(head + n < 2 ^ 32, automatic whenever max_length ≤ 2 ^ 32 - 255; the
n < 256 bound reflects the uint8_t parameter type of
Ring_Buffer_Delete).  At head ≥ 2 ^ 32 - n the wrapped addition sends
delete down the non-wrap branch and the two operations diverge, as the
counterexample shows. -/
theorem C6_delete_equiv_read (rb : ring_buffer) (n : Nat) (hwf : wf rb) (hn : n < 256)
    (hnw : rb.head + n < 4294967296) :
    (Ring_Buffer_Delete rb n).1 = (Ring_Buffer_Read_String rb n).1 ∧
    (Ring_Buffer_Delete rb n).2 = (Ring_Buffer_Read_String rb n).2.2 ∧
    ((Ring_Buffer_Delete rb n).1 = RING_BUFFER_SUCCESS ↔ n ≤ rb.lenght) := by
  obtain ⟨hm2, hm32, hh, ht, hl, htc, hdl, hbytes⟩ := hwf
  have hmod : n % 256 = n := Nat.mod_eq_of_lt hn
  have hsum : (rb.head + n) % 4294967296 = rb.head + n := Nat.mod_eq_of_lt hnw
  have hmh : (rb.max_length + 4294967296 - rb.head) % 4294967296
      = rb.max_length - rb.head := by
    have e : rb.max_length + 4294967296 - rb.head
        = 4294967296 + (rb.max_length - rb.head) := by omega
    rw [e, Nat.add_mod_left]
    exact Nat.mod_eq_of_lt (by omega)
  unfold Ring_Buffer_Delete Ring_Buffer_Read_String
  rw [hmod, hsum, hmh]
  by_cases h1 : rb.lenght < n
  · rw [if_pos h1, if_pos h1]
    refine ⟨rfl, rfl, ?_⟩
    simp only [RING_BUFFER_ERROR, RING_BUFFER_SUCCESS]
    omega
  · rw [if_neg h1, if_neg h1]
    by_cases h2 : n > rb.max_length - rb.head
    · have h3 : rb.head + n ≥ rb.max_length := by omega
      have hw : (n + 4294967296 - (rb.max_length - rb.head)) % 4294967296
          = n - (rb.max_length - rb.head) := by
        have e : n + 4294967296 - (rb.max_length - rb.head)
            = 4294967296 + (n - (rb.max_length - rb.head)) := by omega
        rw [e, Nat.add_mod_left]
        exact Nat.mod_eq_of_lt (by omega)
      rw [if_pos h3, if_pos h2, hw]
      exact ⟨rfl, rfl, iff_of_true rfl (by omega)⟩
    · rw [if_neg h2]
      by_cases h4 : rb.head + n = rb.max_length
      · have h5 : rb.head + n ≥ rb.max_length := by omega
        have hw : (n + 4294967296 - (rb.max_length - rb.head)) % 4294967296
            = n - (rb.max_length - rb.head) := by
          have e : n + 4294967296 - (rb.max_length - rb.head)
              = 4294967296 + (n - (rb.max_length - rb.head)) := by omega
          rw [e, Nat.add_mod_left]
          exact Nat.mod_eq_of_lt (by omega)
        rw [if_pos h5, if_pos h4, hw]
        refine ⟨rfl, ?_, iff_of_true rfl (by omega)⟩
        have h6 : n - (rb.max_length - rb.head) = 0 := by omega
        rw [h6]
      · have h5 : ¬ (rb.head + n ≥ rb.max_length) := by omega
        rw [if_neg h5, if_neg h4]
        exact ⟨rfl, rfl, iff_of_true rfl (by omega)⟩

/-- Witness for C6 at a wrap-crossing concrete state. -/
theorem C6_witness :
    (Ring_Buffer_Delete
        { head := 2, tail := 1, lenght := 3, array_addr := [1, 2, 3, 4], max_length := 4 } 3).1
      = (Ring_Buffer_Read_String
        { head := 2, tail := 1, lenght := 3, array_addr := [1, 2, 3, 4], max_length := 4 } 3).1 ∧
    (Ring_Buffer_Delete
        { head := 2, tail := 1, lenght := 3, array_addr := [1, 2, 3, 4], max_length := 4 } 3).2
      = (Ring_Buffer_Read_String
        { head := 2, tail := 1, lenght := 3, array_addr := [1, 2, 3, 4], max_length := 4 } 3).2.2 ∧
    ((Ring_Buffer_Delete
        { head := 2, tail := 1, lenght := 3, array_addr := [1, 2, 3, 4], max_length := 4 } 3).1
        = RING_BUFFER_SUCCESS ↔
      3 ≤ ({ head := 2, tail := 1, lenght := 3, array_addr := [1, 2, 3, 4],
              max_length := 4 } : ring_buffer).lenght) :=
  C6_delete_equiv_read
    { head := 2, tail := 1, lenght := 3, array_addr := [1, 2, 3, 4], max_length := 4 } 3
    (by decide) (by decide) (by decide)

/-- Auxiliary: indices below the modulus are recovered uniquely from their
wrapped positions. -/
theorem idx_mod_inj (m h k a : Nat) (hk : k < m) (ha : a < m)
    (he : (h + k) % m = (h + a) % m) : k = a := by
  have h1 : k ≡ a [MOD m] := Nat.ModEq.add_left_cancel' h (he : (h + k) ≡ (h + a) [MOD m])
  have h2 : k % m = a % m := h1
  rwa [Nat.mod_eq_of_lt hk, Nat.mod_eq_of_lt ha] at h2

/-- Auxiliary: the pointer-wrap pattern of ring_buffer.c is addition
modulo the array size. -/
theorem wrapStep (m p : Nat) (hp : p < m) :
    (if p + 1 > m - 1 then 0 else p + 1) = (p + 1) % m := by
  split
  · have h1 : p + 1 = m := by omega
    rw [h1, Nat.mod_self]
  · rw [Nat.mod_eq_of_lt (by omega)]

/-- Auxiliary: memcpy preserves the array size. -/
theorem memcpy_length : ∀ (src dst : List Nat) (pos : Nat),
    (memcpy dst pos src).length = dst.length := by
  intro src
  induction src with
  | nil => intro dst pos; rfl
  | cons b rest ih =>
    intro dst pos
    rw [memcpy, ih, List.length_set]

/-- Auxiliary: memcpy leaves indices outside the copied range alone. -/
theorem memcpy_getD_out : ∀ (src dst : List Nat) (pos q : Nat),
    (q < pos ∨ pos + src.length ≤ q) →
    (memcpy dst pos src).getD q 0 = dst.getD q 0 := by
  intro src
  induction src with
  | nil => intro dst pos q hq; rfl
  | cons b rest ih =>
    intro dst pos q hq
    rw [memcpy]
    have h1 : q < pos + 1 ∨ (pos + 1) + rest.length ≤ q := by
      simp only [List.length_cons] at hq; omega
    rw [ih (dst.set pos b) (pos + 1) q h1]
    have h2 : pos ≠ q := by simp only [List.length_cons] at hq; omega
    simp only [List.getD_eq_getElem?_getD, List.getElem?_set_ne h2]

/-- Auxiliary: memcpy places the source bytes at consecutive indices. -/
theorem memcpy_getD_in : ∀ (src dst : List Nat) (pos j : Nat),
    j < src.length → pos + src.length ≤ dst.length →
    (memcpy dst pos src).getD (pos + j) 0 = src.getD j 0 := by
  intro src
  induction src with
  | nil => intro dst pos j hj; simp at hj
  | cons b rest ih =>
    intro dst pos j hj hlen
    rw [memcpy]
    match j with
    | 0 =>
      have h1 : pos + 0 < pos + 1 := by omega
      rw [memcpy_getD_out rest (dst.set pos b) (pos + 1) (pos + 0) (Or.inl h1)]
      have h2 : pos < dst.length := by
        simp only [List.length_cons] at hlen; omega
      have h3 : pos < (dst.set pos b).length := by simpa using h2
      simp only [Nat.add_zero, List.getD_eq_getElem?_getD, List.getElem?_set_eq_of_lt b h2]
      simp
    | j' + 1 =>
      have h1 : pos + (j' + 1) = (pos + 1) + j' := by omega
      rw [h1, ih (dst.set pos b) (pos + 1) j'
        (by simp only [List.length_cons] at hj; omega)
        (by simp only [List.length_cons] at hlen; simp only [List.length_set]; omega)]
      rfl

/-- Auxiliary: memcpy keeps every stored value below 256 when the source
is byte-valued. -/
theorem memcpy_bytes : ∀ (src dst : List Nat) (pos : Nat),
    (∀ b ∈ dst, b < 256) → (∀ b ∈ src, b < 256) →
    ∀ b ∈ memcpy dst pos src, b < 256 := by
  intro src
  induction src with
  | nil => intro dst pos hd _ b hb; exact hd b hb
  | cons v rest ih =>
    intro dst pos hd hs b hb
    rw [memcpy] at hb
    refine ih (dst.set pos v) (pos + 1) ?_ ?_ b hb
    · intro y hy
      rcases List.mem_or_eq_of_mem_set hy with h | h
      · exact hd y h
      · rw [h]; exact hs v (by simp)
    · intro y hy; exact hs y (by simp [hy])

/-- Auxiliary: getD on a byte-valued array returns a byte at every
index. -/
theorem getD_lt_256 (data : List Nat) (h : ∀ b ∈ data, b < 256) (q : Nat) :
    data.getD q 0 < 256 := by
  by_cases hq : q < data.length
  · rw [List.getD_eq_getElem data 0 hq]
    exact h _ (List.getElem_mem hq)
  · rw [List.getD_eq_default data 0 (by omega)]
    omega

/-- Auxiliary: bitwise or of a multiple of a power of two with a smaller
number is their sum. -/
theorem lor_mul_pow : ∀ (k a b : Nat), b < 2 ^ k → (a * 2 ^ k) ||| b = a * 2 ^ k + b := by
  intro k
  induction k with
  | zero =>
    intro a b hb
    have hb0 : b = 0 := by omega
    simp [hb0]
  | succ k ih =>
    intro a b hb
    have hd : Nat.div2 b = b / 2 := Nat.div2_val b
    have hb2 : b / 2 < 2 ^ k := by
      have h2 : (2 : Nat) ^ (k + 1) = 2 ^ k * 2 := by rw [Nat.pow_succ]
      omega
    have ih2 : (a * 2 ^ k) ||| (b / 2) = a * 2 ^ k + b / 2 := ih a (b / 2) hb2
    have hbit : 2 * (b / 2) + (Nat.bodd b).toNat = b := by
      rw [← hd, ← Nat.bit_val, Nat.bit_decomp]
    calc a * 2 ^ (k + 1) ||| b
        = Nat.bit false (a * 2 ^ k) ||| Nat.bit (Nat.bodd b) (Nat.div2 b) := by
          rw [Nat.bit_decomp b]
          congr 1
          simp only [Nat.bit_val, Bool.toNat_false, Nat.add_zero, Nat.pow_succ]
          ring
      _ = Nat.bit (false || Nat.bodd b) ((a * 2 ^ k) ||| Nat.div2 b) := Nat.lor_bit false _ _ _
      _ = Nat.bit (Nat.bodd b) (a * 2 ^ k + b / 2) := by rw [Bool.false_or, hd, ih2]
      _ = a * 2 ^ (k + 1) + b := by
          simp only [Nat.bit_val, Nat.pow_succ]
          rw [← Nat.mul_assoc]
          omega

/-- Auxiliary: bitwise or is addition when the low bits of the first
argument are clear and the second argument fits in them. -/
theorem lor_eq_add (x y k : Nat) (hx : x % 2 ^ k = 0) (hy : y < 2 ^ k) :
    x ||| y = x + y := by
  have hdvd : 2 ^ k ∣ x := Nat.dvd_of_mod_eq_zero hx
  have he : x / 2 ^ k * 2 ^ k = x := Nat.div_mul_cancel hdvd
  calc x ||| y = (x / 2 ^ k * 2 ^ k) ||| y := by rw [he]
    _ = x / 2 ^ k * 2 ^ k + y := lor_mul_pow k (x / 2 ^ k) y hy
    _ = x + y := by rw [he]

/-- Auxiliary: folding from an arbitrary accumulator scales it by the
byte base. -/
theorem beVal_foldl : ∀ (bs : List Nat) (a : Nat),
    bs.foldl (fun x b => x * 256 + b) a = a * 256 ^ bs.length + beVal bs := by
  intro bs
  induction bs with
  | nil => intro a; simp [beVal]
  | cons b rest ih =>
    intro a
    have h1 : beVal (b :: rest) = rest.foldl (fun x c => x * 256 + c) b := by
      simp [beVal]
    simp only [List.foldl_cons, List.length_cons]
    rw [ih (a * 256 + b), h1, ih b]
    ring

/-- Auxiliary: big-endian value of a cons cell. -/
theorem beVal_cons (b : Nat) (bs : List Nat) :
    beVal (b :: bs) = b * 256 ^ bs.length + beVal bs := by
  have h1 : beVal (b :: bs) = bs.foldl (fun x c => x * 256 + c) b := by simp [beVal]
  rw [h1, beVal_foldl bs b]

/-- Auxiliary: the big-endian value of a byte list fits in its width. -/
theorem beVal_lt : ∀ (bs : List Nat), (∀ b ∈ bs, b < 256) → beVal bs < 256 ^ bs.length := by
  intro bs
  induction bs with
  | nil => intro _; simp [beVal]
  | cons b rest ih =>
    intro h
    have hb : b < 256 := h b (by simp)
    have hr : beVal rest < 256 ^ rest.length := ih fun y hy => h y (by simp [hy])
    rw [beVal_cons, List.length_cons, Nat.pow_succ]
    calc b * 256 ^ rest.length + beVal rest
        < b * 256 ^ rest.length + 256 ^ rest.length := by omega
      _ = (b + 1) * 256 ^ rest.length := by ring
      _ ≤ 256 * 256 ^ rest.length := Nat.mul_le_mul_right _ (by omega)
      _ = 256 ^ rest.length * 256 := by ring

/-- Auxiliary: powers of 256 as powers of two. -/
theorem pow256 (r : Nat) : (256 : Nat) ^ r = 2 ^ (8 * r) := by
  rw [pow_mul]; norm_num

/-- Auxiliary: length of the logical content. -/
theorem content_length (rb : ring_buffer) : (content rb).length = rb.lenght := by
  simp [content]

/-- Auxiliary: elements of the logical content are the wrapped array
reads. -/
theorem content_get (rb : ring_buffer) (k : Nat) (hk : k < (content rb).length) :
    (content rb)[k] = rb.array_addr.getD ((rb.head + k) % rb.max_length) 0 := by
  simp [content]

/-- Auxiliary: the logical content of a byte-valued array is
byte-valued. -/
theorem content_bytes (rb : ring_buffer) (h : ∀ b ∈ rb.array_addr, b < 256) :
    ∀ b ∈ content rb, b < 256 := by
  intro b hb
  simp only [content, List.mem_map, List.mem_range] at hb
  obtain ⟨k, _, hk⟩ := hb
  rw [← hk]
  exact getD_lt_256 rb.array_addr h _

/-- Auxiliary: the word-reconstruction loop computes the big-endian value
of the r wrapped bytes that follow position p, on top of an accumulator
whose low 8 * r bits are clear. -/
theorem getWordLoop_spec (data : List Nat) (m : Nat) (hbytes : ∀ b ∈ data, b < 256) :
    ∀ (r p acc : Nat), p < m → acc % 2 ^ (8 * r) = 0 →
      getWordLoop data m r p acc
        = acc + beVal ((List.range r).map fun t => data.getD ((p + t) % m) 0) := by
  intro r
  induction r with
  | zero =>
    intro p acc _ _
    simp [getWordLoop, beVal]
  | succ r ih =>
    intro p acc hp hacc
    have hm : 0 < m := by omega
    have hb : data.getD p 0 < 256 := getD_lt_256 data hbytes p
    have hsh : (data.getD p 0) <<< (8 * r) = data.getD p 0 * 2 ^ (8 * r) :=
      Nat.shiftLeft_eq _ _
    have hy : data.getD p 0 * 2 ^ (8 * r) < 2 ^ (8 * (r + 1)) := by
      have h1 : (2 : Nat) ^ (8 * (r + 1)) = 2 ^ 8 * 2 ^ (8 * r) := by
        rw [← Nat.pow_add]; congr 1; ring
      rw [h1]
      exact Nat.mul_lt_mul_of_lt_of_le hb (Nat.le_refl _) (Nat.two_pow_pos _)
    have hor : acc ||| (data.getD p 0) <<< (8 * r)
        = acc + data.getD p 0 * 2 ^ (8 * r) := by
      rw [hsh]
      exact lor_eq_add _ _ (8 * (r + 1)) hacc hy
    have hacc2 : (acc + data.getD p 0 * 2 ^ (8 * r)) % 2 ^ (8 * r) = 0 := by
      have hd1 : 2 ^ (8 * r) ∣ acc := by
        refine Nat.dvd_trans (Nat.pow_dvd_pow 2 (by omega)) (Nat.dvd_of_mod_eq_zero hacc)
      have hd2 : 2 ^ (8 * r) ∣ data.getD p 0 * 2 ^ (8 * r) := Dvd.intro_left _ rfl
      exact (Nat.mod_eq_zero_of_dvd (Nat.dvd_add hd1 hd2))
    have hp2 : (p + 1) % m < m := Nat.mod_lt _ hm
    rw [getWordLoop, hor, wrapStep m p hp, ih ((p + 1) % m) _ hp2 hacc2]
    have hmap : ((List.range r).map fun t => data.getD (((p + 1) % m + t) % m) 0)
        = (List.range r).map fun t => data.getD ((p + (t + 1)) % m) 0 := by
      refine List.map_congr_left ?_
      intro t _
      rw [Nat.mod_add_mod]
      congr 2
      omega
    rw [hmap]
    have hrhs : ((List.range (r + 1)).map fun t => data.getD ((p + t) % m) 0)
        = data.getD (p % m) 0 ::
            ((List.range r).map fun t => data.getD ((p + (t + 1)) % m) 0) := by
      rw [List.range_succ_eq_map]
      simp [List.map_map]
    rw [hrhs, beVal_cons]
    have hlen : ((List.range r).map fun t => data.getD ((p + (t + 1)) % m) 0).length = r := by
      simp
    rw [hlen, Nat.mod_eq_of_lt hp, pow256]
    omega

/-- Auxiliary: getD commutes with take inside the taken range. -/
theorem getD_take_lt (l : List Nat) (n j : Nat) (hj : j < n) (hjl : j < l.length) :
    (l.take n).getD j 0 = l.getD j 0 := by
  rw [List.getD_eq_getElem _ _ (by simp only [List.length_take]; omega),
    List.getD_eq_getElem _ _ hjl]
  exact List.getElem_take l

/-- Auxiliary: getD commutes with drop. -/
theorem getD_drop_add (l : List Nat) (n j : Nat) (h : n + j < l.length) :
    (l.drop n).getD j 0 = l.getD (n + j) 0 := by
  rw [List.getD_eq_getElem _ _ (by simp only [List.length_drop]; omega),
    List.getD_eq_getElem _ _ h]
  rw [List.getElem_drop]

/-- Auxiliary: Ring_Buffer_Get_Word at the wrapped position of logical
offset j reads the big-endian value of the content slice starting at
j. -/
theorem getWord_slice (rb : ring_buffer) (j L : Nat) (hwf : wf rb)
    (hjL : j + L ≤ rb.lenght) :
    (Ring_Buffer_Get_Word rb ((rb.head + j) % rb.max_length) L).1
      = beVal (((content rb).drop j).take L) := by
  obtain ⟨hm2, hm32, hh, ht, hl, htc, hdl, hbytes⟩ := hwf
  have hm : 0 < rb.max_length := by omega
  have hp : (rb.head + j) % rb.max_length < rb.max_length := Nat.mod_lt _ hm
  unfold Ring_Buffer_Get_Word
  simp only
  rw [getWordLoop_spec rb.array_addr rb.max_length hbytes L _ 0 hp (by simp), Nat.zero_add]
  congr 1
  refine List.ext_getElem ?_ ?_
  · simp only [List.length_map, List.length_range, List.length_take, List.length_drop,
      content_length]
    omega
  · intro t h1 h2
    simp only [List.getElem_map, List.getElem_range, List.getElem_take, List.getElem_drop]
    have h3 : j + t < (content rb).length := by
      simp only [List.length_map, List.length_range] at h1
      rw [content_length]; omega
    rw [content_get rb (j + t) h3, Nat.mod_add_mod]
    congr 2
    omega

/-- Auxiliary: the encoding has the requested width. -/
theorem encode_length (kw L : Nat) : (encodeBE kw L).length = L := by
  simp [encodeBE]

/-- Auxiliary: the encoding is byte-valued. -/
theorem encode_bytes (kw L : Nat) : ∀ b ∈ encodeBE kw L, b < 256 := by
  intro b hb
  simp only [encodeBE, List.mem_map] at hb
  obtain ⟨i, _, hi⟩ := hb
  rw [← hi]
  exact Nat.mod_lt _ (by norm_num)

/-- Auxiliary: dividing before or after cutting high bits gives the same
byte. -/
theorem div_mod256_eq (kw e E : Nat) (h : e + 8 ≤ E) :
    kw / 2 ^ e % 256 = kw % 2 ^ E / 2 ^ e % 256 := by
  obtain ⟨q, r, hr, rfl⟩ : ∃ q r, r < 2 ^ E ∧ r + q * 2 ^ E = kw :=
    ⟨kw / 2 ^ E, kw % 2 ^ E, Nat.mod_lt _ (Nat.two_pow_pos E), Nat.mod_add_div' kw (2 ^ E)⟩
  have hrE : (r + q * 2 ^ E) % 2 ^ E = r := by
    rw [Nat.add_mul_mod_self_right, Nat.mod_eq_of_lt hr]
  rw [hrE]
  have hsplit : q * 2 ^ E = q * 2 ^ (E - e) * 2 ^ e := by
    rw [Nat.mul_assoc, ← Nat.pow_add]
    congr 2
    omega
  rw [hsplit, Nat.add_mul_div_right _ _ (Nat.two_pow_pos e)]
  have hsplit2 : q * 2 ^ (E - e) = q * 2 ^ (E - e - 8) * 256 := by
    rw [Nat.mul_assoc]
    congr 1
    have he : E - e = (E - e - 8) + 8 := by omega
    rw [he, Nat.pow_add]
    norm_num
  rw [hsplit2, Nat.add_mul_mod_self_right]

/-- Auxiliary: unfolding the encoding one byte at a time. -/
theorem encode_succ (kw L : Nat) :
    encodeBE kw (L + 1) = (kw / 2 ^ (8 * L) % 256) :: encodeBE (kw % 2 ^ (8 * L)) L := by
  unfold encodeBE
  rw [List.range_succ_eq_map]
  simp only [List.map_cons, List.map_map]
  norm_num
  intro a ha
  have he : L - (a + 1) = L - 1 - a := by omega
  rw [he]
  exact div_mod256_eq kw (8 * (L - 1 - a)) (8 * L) (by omega)

/-- Auxiliary: the encoding of a value that fits in the width evaluates
back to the value. -/
theorem beVal_encode : ∀ (L kw : Nat), kw < 2 ^ (8 * L) → beVal (encodeBE kw L) = kw := by
  intro L
  induction L with
  | zero =>
    intro kw h
    have h0 : kw = 0 := by simp only [Nat.mul_zero, Nat.pow_zero] at h; omega
    simp [h0, encodeBE, beVal]
  | succ L ih =>
    intro kw h
    rw [encode_succ, beVal_cons, encode_length]
    have hmod : kw % 2 ^ (8 * L) < 2 ^ (8 * L) := Nat.mod_lt _ (Nat.two_pow_pos _)
    rw [ih _ hmod, pow256]
    have hdivlt : kw / 2 ^ (8 * L) < 256 := by
      rw [Nat.div_lt_iff_lt_mul (Nat.two_pow_pos _)]
      calc kw < 2 ^ (8 * (L + 1)) := h
        _ = 256 * 2 ^ (8 * L) := by
            have he : 8 * (L + 1) = 8 + 8 * L := by ring
            rw [he, Nat.pow_add]
    rw [Nat.mod_eq_of_lt hdivlt, Nat.mul_comm]
    exact Nat.div_add_mod kw (2 ^ (8 * L))

/-- Auxiliary: every byte list is the encoding of its own value. -/
theorem encode_beVal : ∀ (bs : List Nat), (∀ b ∈ bs, b < 256) →
    encodeBE (beVal bs) bs.length = bs := by
  intro bs
  induction bs with
  | nil => intro _; simp [encodeBE]
  | cons b rest ih =>
    intro h
    have hb : b < 256 := h b (by simp)
    have hrest : ∀ y ∈ rest, y < 256 := fun y hy => h y (by simp [hy])
    have hv : beVal rest < 2 ^ (8 * rest.length) := by
      rw [← pow256]
      exact beVal_lt rest hrest
    rw [List.length_cons, encode_succ, beVal_cons, pow256]
    congr 1
    · rw [Nat.add_comm, Nat.add_mul_div_right _ _ (Nat.two_pow_pos _),
        Nat.div_eq_of_lt hv, Nat.zero_add, Nat.mod_eq_of_lt hb]
    · have h2 : (b * 2 ^ (8 * rest.length) + beVal rest) % 2 ^ (8 * rest.length)
          = beVal rest := by
        rw [Nat.add_comm, Nat.add_mul_mod_self_right, Nat.mod_eq_of_lt hv]
      rw [h2, ih hrest]

/-- Auxiliary: if the first full match lies at logical offset i, the scan
loop reaches it and returns distance i + 1. -/
theorem findLoop_reaches (rb : ring_buffer) (kw trigger L i maxf : Nat)
    (hwf : wf rb)
    (hiL : i + L ≤ rb.lenght)
    (hmaxf : maxf = rb.lenght - L + 1)
    (htrig : trigger = rb.array_addr.getD ((rb.head + i) % rb.max_length) 0)
    (hmatch : (Ring_Buffer_Get_Word rb ((rb.head + i) % rb.max_length) L).1 = kw)
    (hnomatch : ∀ j, j < i →
      (Ring_Buffer_Get_Word rb ((rb.head + j) % rb.max_length) L).1 ≠ kw) :
    ∀ fuel dist, dist + fuel = maxf + 1 → 1 ≤ dist → dist ≤ i + 1 →
      findLoop rb kw trigger L fuel ((rb.head + (dist - 1)) % rb.max_length) dist
        = some (i + 1) := by
  obtain ⟨hm2, hm32, hh, ht, hl, htc, hdl, hbytes⟩ := hwf
  have hm : 0 < rb.max_length := by omega
  intro fuel
  induction fuel with
  | zero =>
    intro dist hfd h1d hdi
    omega
  | succ fuel ih =>
    intro dist hfd h1d hdi
    rw [findLoop]
    by_cases hij : dist = i + 1
    · have hd1 : dist - 1 = i := by omega
      rw [hd1, if_pos ⟨htrig.symm, hmatch⟩, hij]
    · have hlt : dist - 1 < i := by omega
      rw [if_neg (fun hc => hnomatch (dist - 1) hlt hc.2)]
      have hfh : (rb.head + (dist - 1)) % rb.max_length < rb.max_length := Nat.mod_lt _ hm
      rw [wrapStep _ _ hfh, Nat.mod_add_mod]
      have hstep : rb.head + (dist - 1) + 1 = rb.head + (dist + 1 - 1) := by omega
      rw [hstep]
      exact ih (dist + 1) (by omega) (by omega) (by omega)

/-- Claim C2 (amended): when the stored bytes contain exactly one
occurrence of the big-endian encoding of keyword kw of length L, the
search returns the 1-based distance from head to the FIRST byte of the
match, i.e. the count of stored bytes preceding the keyword plus one (in
the concrete scenario of the spec, 14 rather than 17). -/
theorem C2_find_keyword_unique_occurrence (rb : ring_buffer) (kw L i : Nat)
    (hwf : wf rb) (hL1 : 1 ≤ L) (hL4 : L ≤ 4) (hkw : kw < 2 ^ (8 * L))
    (hocc : occursAt rb kw L i)
    (huniq : ∀ j, j < rb.lenght → occursAt rb kw L j → j = i) :
    (Ring_Buffer_Find_Keyword rb kw L).1 = i + 1 := by
  obtain ⟨hiL, hslice⟩ := hocc
  obtain ⟨hm2, hm32, hh, ht, hl, htc, hdl, hbytes⟩ := hwf
  have hwf2 : wf rb := ⟨hm2, hm32, hh, ht, hl, htc, hdl, hbytes⟩
  have hm : 0 < rb.max_length := by omega
  have hkw32 : kw % 4294967296 = kw := by
    have h232 : (2 : Nat) ^ (8 * L) ≤ 2 ^ 32 := Nat.pow_le_pow_right (by norm_num) (by omega)
    omega
  have hL256 : L % 256 = L := Nat.mod_eq_of_lt (by omega)
  have hlen32 : rb.lenght % 4294967296 = rb.lenght := Nat.mod_eq_of_lt (by omega)
  have hmaxf : (rb.lenght % 4294967296 + 4294967296 + 1 - L % 256) % 4294967296
      = rb.lenght - L + 1 := by
    rw [hL256, hlen32]
    have h1 : rb.lenght + 4294967296 + 1 - L = 4294967296 + (rb.lenght + 1 - L) := by omega
    rw [h1, Nat.add_mod_left,
      Nat.mod_eq_of_lt (show rb.lenght + 1 - L < 4294967296 by omega)]
    omega
  -- the byte at the start of the occurrence is the keyword trigger byte
  have hidx0 : rb.array_addr.getD ((rb.head + i) % rb.max_length) 0
      = kw / 2 ^ (8 * (L - 1)) % 256 := by
    have h2 : (((content rb).drop i).take L).getD 0 0 = (encodeBE kw L).getD 0 0 := by
      rw [hslice]
    rw [getD_take_lt _ _ _ (by omega)
        (by simp only [List.length_drop, content_length]; omega),
      getD_drop_add _ _ _ (by rw [content_length]; omega), Nat.add_zero,
      List.getD_eq_getElem _ _ (by rw [content_length]; omega),
      content_get rb i (by rw [content_length]; omega)] at h2
    rw [h2, List.getD_eq_getElem _ _ (by rw [encode_length]; omega)]
    simp [encodeBE]
  have htrig : ((kw % 4294967296) >>> ((L % 256 - 1) * 8)) % 256
      = rb.array_addr.getD ((rb.head + i) % rb.max_length) 0 := by
    rw [hkw32, hL256, Nat.shiftRight_eq_div_pow, hidx0, Nat.mul_comm (L - 1) 8]
  have hmatch : (Ring_Buffer_Get_Word rb ((rb.head + i) % rb.max_length) L).1 = kw := by
    rw [getWord_slice rb i L hwf2 hiL, hslice]
    exact beVal_encode L kw hkw
  have hnomatch : ∀ j, j < i →
      (Ring_Buffer_Get_Word rb ((rb.head + j) % rb.max_length) L).1 ≠ kw := by
    intro j hj hcon
    have hjL : j + L ≤ rb.lenght := by omega
    rw [getWord_slice rb j L hwf2 hjL] at hcon
    have hslen : (((content rb).drop j).take L).length = L := by
      simp only [List.length_take, List.length_drop, content_length]
      omega
    have hsbytes : ∀ b ∈ ((content rb).drop j).take L, b < 256 := by
      intro b hb
      exact content_bytes rb hbytes b (List.mem_of_mem_drop (List.mem_of_mem_take hb))
    have hback := encode_beVal (((content rb).drop j).take L) hsbytes
    rw [hslen, hcon] at hback
    have hoccj : occursAt rb kw L j := ⟨hjL, hback.symm⟩
    have := huniq j (by omega) hoccj
    omega
  rw [hkw32, hL256] at htrig
  have hfl := findLoop_reaches rb kw (kw >>> ((L - 1) * 8) % 256) L i
    (rb.lenght - L + 1) hwf2 hiL rfl htrig hmatch hnomatch (rb.lenght - L + 1) 1
    (by omega) (by omega) (by omega)
  have hh0 : (rb.head + (1 - 1)) % rb.max_length = rb.head := by
    simp [Nat.mod_eq_of_lt hh]
  rw [hh0] at hfl
  unfold Ring_Buffer_Find_Keyword findLoopInit
  rw [hmaxf, hkw32, hL256, hfl]
  rfl


/-- Auxiliary: a successful block write appends the written bytes to the
logical content and preserves well-formedness. -/
theorem write_string_append (rb : ring_buffer) (input : List Nat) (len : Nat)
    (hwf : wf rb) (hin : len ≤ input.length) (hfit : rb.lenght + len ≤ rb.max_length) :
    (Ring_Buffer_Write_String rb input len).1 = RING_BUFFER_SUCCESS ∧
    content (Ring_Buffer_Write_String rb input len).2
      = content rb ++ (input.take len).map (fun b => b % 256) ∧
    wf (Ring_Buffer_Write_String rb input len).2 := by
  obtain ⟨hm2, hm32, hh, ht, hl, htc, hdl, hbytes⟩ := hwf
  have hm : 0 < rb.max_length := by omega
  have hIlen : ((input.take len).map fun b => b % 256).length = len := by
    simp only [List.length_map, List.length_take]
    omega
  have hIbytes : ∀ b ∈ (input.take len).map (fun b => b % 256), b < 256 := by
    intro b hb
    simp only [List.mem_map] at hb
    obtain ⟨y, _, hy⟩ := hb
    rw [← hy]
    exact Nat.mod_lt _ (by norm_num)
  have hcl : (content rb).length = rb.lenght := content_length rb
  by_cases hsplit : rb.max_length - rb.tail < len
  · -- the write wraps: two memcpy calls
    have heq : Ring_Buffer_Write_String rb input len
        = (RING_BUFFER_SUCCESS,
           { rb with
             array_addr :=
               memcpy
                 (memcpy rb.array_addr rb.tail
                   (((input.take len).map fun b => b % 256).take (rb.max_length - rb.tail)))
                 0
                 ((((input.take len).map fun b => b % 256).drop (rb.max_length - rb.tail)).take
                   (len - (rb.max_length - rb.tail))),
             lenght := rb.lenght + len,
             tail := len - (rb.max_length - rb.tail) }) := by
      unfold Ring_Buffer_Write_String
      rw [if_neg (show ¬ (rb.lenght + len > rb.max_length) by omega), if_pos hsplit]
    have hdrop_take : (((input.take len).map fun b => b % 256).drop (rb.max_length - rb.tail)).take
        (len - (rb.max_length - rb.tail))
        = ((input.take len).map fun b => b % 256).drop (rb.max_length - rb.tail) :=
      List.take_of_length_le (by simp only [List.length_drop, hIlen]; omega)
    have hdroplen : (((input.take len).map fun b => b % 256).drop (rb.max_length - rb.tail)).length
        = len - (rb.max_length - rb.tail) := by
      simp only [List.length_drop, hIlen]
    have htakelen : (((input.take len).map fun b => b % 256).take (rb.max_length - rb.tail)).length
        = rb.max_length - rb.tail := by
      simp only [List.length_take, hIlen]
      omega
    have hinnerlen : (memcpy rb.array_addr rb.tail
        (((input.take len).map fun b => b % 256).take (rb.max_length - rb.tail))).length
        = rb.max_length := by
      rw [memcpy_length, hdl]
    have hD2len : (memcpy
        (memcpy rb.array_addr rb.tail
          (((input.take len).map fun b => b % 256).take (rb.max_length - rb.tail)))
        0
        ((((input.take len).map fun b => b % 256).drop (rb.max_length - rb.tail)).take
          (len - (rb.max_length - rb.tail)))).length = rb.max_length := by
      rw [memcpy_length, hinnerlen]
    have huntouched : ∀ k, k < rb.lenght →
        (memcpy
          (memcpy rb.array_addr rb.tail
            (((input.take len).map fun b => b % 256).take (rb.max_length - rb.tail)))
          0
          ((((input.take len).map fun b => b % 256).drop (rb.max_length - rb.tail)).take
            (len - (rb.max_length - rb.tail)))).getD ((rb.head + k) % rb.max_length) 0
        = rb.array_addr.getD ((rb.head + k) % rb.max_length) 0 := by
      intro k hk
      have hq : (rb.head + k) % rb.max_length < rb.max_length := Nat.mod_lt _ hm
      have hqb : ¬ ((rb.head + k) % rb.max_length < len - (rb.max_length - rb.tail)) := by
        intro hcon
        have e1 : (rb.head + (rb.lenght + ((rb.max_length - rb.tail) +
            (rb.head + k) % rb.max_length))) % rb.max_length
            = (rb.head + k) % rb.max_length := by
          have e2 : rb.head + (rb.lenght + ((rb.max_length - rb.tail) +
              (rb.head + k) % rb.max_length))
              = (rb.head + rb.lenght) + ((rb.max_length - rb.tail) +
                (rb.head + k) % rb.max_length) := by ring
          rw [e2, ← Nat.mod_add_mod, ← htc]
          have e3 : rb.tail + ((rb.max_length - rb.tail) + (rb.head + k) % rb.max_length)
              = rb.max_length + (rb.head + k) % rb.max_length := by omega
          rw [e3, Nat.add_mod_left]
          exact Nat.mod_eq_of_lt hq
        have hidx := idx_mod_inj rb.max_length rb.head k
          (rb.lenght + ((rb.max_length - rb.tail) + (rb.head + k) % rb.max_length))
          (by omega) (by omega) (by rw [e1])
        omega
      have hqt : ¬ (rb.tail ≤ (rb.head + k) % rb.max_length) := by
        intro hcon
        have e1 : (rb.head + (rb.lenght + ((rb.head + k) % rb.max_length - rb.tail)))
            % rb.max_length = (rb.head + k) % rb.max_length := by
          have e2 : rb.head + (rb.lenght + ((rb.head + k) % rb.max_length - rb.tail))
              = (rb.head + rb.lenght) + ((rb.head + k) % rb.max_length - rb.tail) := by ring
          rw [e2, ← Nat.mod_add_mod, ← htc]
          have e3 : rb.tail + ((rb.head + k) % rb.max_length - rb.tail)
              = (rb.head + k) % rb.max_length := by omega
          rw [e3]
          exact Nat.mod_eq_of_lt hq
        have hidx := idx_mod_inj rb.max_length rb.head k
          (rb.lenght + ((rb.head + k) % rb.max_length - rb.tail))
          (by omega) (by omega) (by rw [e1])
        omega
      rw [memcpy_getD_out _ _ 0 _ (Or.inr (by rw [hdrop_take, hdroplen]; omega)),
        memcpy_getD_out _ _ rb.tail _ (Or.inl (by omega))]
    have hwritten : ∀ j, j < len →
        (memcpy
          (memcpy rb.array_addr rb.tail
            (((input.take len).map fun b => b % 256).take (rb.max_length - rb.tail)))
          0
          ((((input.take len).map fun b => b % 256).drop (rb.max_length - rb.tail)).take
            (len - (rb.max_length - rb.tail)))).getD
          ((rb.head + (rb.lenght + j)) % rb.max_length) 0
        = ((input.take len).map fun b => b % 256).getD j 0 := by
      intro j hj
      have e0 : (rb.head + (rb.lenght + j)) % rb.max_length
          = (rb.tail + j) % rb.max_length := by
        have e1 : rb.head + (rb.lenght + j) = (rb.head + rb.lenght) + j := by ring
        rw [e1, ← Nat.mod_add_mod, ← htc]
      rw [e0]
      by_cases hja : j < rb.max_length - rb.tail
      · have e1 : (rb.tail + j) % rb.max_length = rb.tail + j :=
          Nat.mod_eq_of_lt (by omega)
        rw [e1]
        rw [memcpy_getD_out _ _ 0 _ (Or.inr (by rw [hdrop_take, hdroplen]; omega))]
        have hin2 := memcpy_getD_in
          (((input.take len).map fun b => b % 256).take (rb.max_length - rb.tail))
          rb.array_addr rb.tail j (by rw [htakelen]; omega) (by rw [htakelen, hdl]; omega)
        rw [hin2, getD_take_lt _ _ _ hja (by rw [hIlen]; omega)]
      · have e1 : (rb.tail + j) % rb.max_length = j - (rb.max_length - rb.tail) := by
          have e2 : rb.tail + j = rb.max_length + (j - (rb.max_length - rb.tail)) := by
            omega
          rw [e2, Nat.add_mod_left]
          exact Nat.mod_eq_of_lt (by omega)
        rw [e1]
        have hin2 := memcpy_getD_in
          ((((input.take len).map fun b => b % 256).drop (rb.max_length - rb.tail)).take
            (len - (rb.max_length - rb.tail)))
          (memcpy rb.array_addr rb.tail
            (((input.take len).map fun b => b % 256).take (rb.max_length - rb.tail)))
          0 (j - (rb.max_length - rb.tail))
          (by rw [hdrop_take, hdroplen]; omega)
          (by rw [hdrop_take, hdroplen, hinnerlen]; omega)
        rw [Nat.zero_add] at hin2
        rw [hin2, hdrop_take, getD_drop_add _ _ _ (by rw [hIlen]; omega)]
        congr 1
        omega
    rw [heq]
    refine ⟨rfl, ?_, ?_⟩
    · refine List.ext_getElem ?_ ?_
      · simp only [content_length, List.length_append, hIlen, hcl]
      · intro k h1 h2
        rw [content_get _ k h1]
        simp only [content_length] at h1
        by_cases hkl : k < rb.lenght
        · rw [huntouched k hkl,
            List.getElem_append_left (show k < (content rb).length by omega),
            content_get _ k (by omega)]
        · have hj : k - rb.lenght < len := by omega
          have h3 := hwritten (k - rb.lenght) hj
          have e4 : rb.head + (rb.lenght + (k - rb.lenght)) = rb.head + k := by omega
          rw [e4] at h3
          rw [h3, List.getD_eq_getElem _ _ (by rw [hIlen]; omega),
            List.getElem_append_right (show (content rb).length ≤ k by omega)]
          simp only [hcl]
    · refine ⟨hm2, hm32, hh, ?_, ?_, ?_, hD2len, ?_⟩
      · show len - (rb.max_length - rb.tail) < rb.max_length
        omega
      · show rb.lenght + len ≤ rb.max_length
        omega
      · show len - (rb.max_length - rb.tail)
            = (rb.head + (rb.lenght + len)) % rb.max_length
        have e1 : rb.head + (rb.lenght + len) = (rb.head + rb.lenght) + len := by ring
        rw [e1, ← Nat.mod_add_mod, ← htc]
        have e2 : rb.tail + len = rb.max_length + (len - (rb.max_length - rb.tail)) := by
          omega
        rw [e2, Nat.add_mod_left]
        exact (Nat.mod_eq_of_lt (by omega)).symm
      · refine memcpy_bytes _ _ _ (memcpy_bytes _ _ _ hbytes ?_) ?_
        · intro b hb
          exact hIbytes b (List.mem_of_mem_take hb)
        · intro b hb
          exact hIbytes b (List.mem_of_mem_drop (List.mem_of_mem_take hb))
  · -- the write fits before the array end: one memcpy
    have heq : Ring_Buffer_Write_String rb input len
        = (RING_BUFFER_SUCCESS,
           { rb with
             array_addr := memcpy rb.array_addr rb.tail ((input.take len).map fun b => b % 256),
             lenght := rb.lenght + len,
             tail := if rb.tail + len = rb.max_length then 0 else rb.tail + len }) := by
      unfold Ring_Buffer_Write_String
      rw [if_neg (show ¬ (rb.lenght + len > rb.max_length) by omega),
        if_neg hsplit]
    have huntouched : ∀ k, k < rb.lenght →
        (memcpy rb.array_addr rb.tail ((input.take len).map fun b => b % 256)).getD
          ((rb.head + k) % rb.max_length) 0
        = rb.array_addr.getD ((rb.head + k) % rb.max_length) 0 := by
      intro k hk
      have hq : (rb.head + k) % rb.max_length < rb.max_length := Nat.mod_lt _ hm
      refine memcpy_getD_out _ _ rb.tail _ ?_
      by_cases hqt : rb.tail ≤ (rb.head + k) % rb.max_length
      · refine Or.inr ?_
        rw [hIlen]
        by_contra hcon
        have e1 : (rb.head + (rb.lenght + ((rb.head + k) % rb.max_length - rb.tail)))
            % rb.max_length = (rb.head + k) % rb.max_length := by
          have e2 : rb.head + (rb.lenght + ((rb.head + k) % rb.max_length - rb.tail))
              = (rb.head + rb.lenght) + ((rb.head + k) % rb.max_length - rb.tail) := by ring
          rw [e2, ← Nat.mod_add_mod, ← htc]
          have e3 : rb.tail + ((rb.head + k) % rb.max_length - rb.tail)
              = (rb.head + k) % rb.max_length := by omega
          rw [e3]
          exact Nat.mod_eq_of_lt hq
        have hidx := idx_mod_inj rb.max_length rb.head k
          (rb.lenght + ((rb.head + k) % rb.max_length - rb.tail))
          (by omega) (by omega) (by rw [e1])
        omega
      · exact Or.inl (by omega)
    have hwritten : ∀ j, j < len →
        (memcpy rb.array_addr rb.tail ((input.take len).map fun b => b % 256)).getD
          ((rb.head + (rb.lenght + j)) % rb.max_length) 0
        = ((input.take len).map fun b => b % 256).getD j 0 := by
      intro j hj
      have e0 : (rb.head + (rb.lenght + j)) % rb.max_length
          = (rb.tail + j) % rb.max_length := by
        have e1 : rb.head + (rb.lenght + j) = (rb.head + rb.lenght) + j := by ring
        rw [e1, ← Nat.mod_add_mod, ← htc]
      have e1 : (rb.tail + j) % rb.max_length = rb.tail + j :=
        Nat.mod_eq_of_lt (by omega)
      rw [e0, e1]
      exact memcpy_getD_in _ _ rb.tail j (by rw [hIlen]; omega) (by rw [hIlen, hdl]; omega)
    rw [heq]
    refine ⟨rfl, ?_, ?_⟩
    · refine List.ext_getElem ?_ ?_
      · simp only [content_length, List.length_append, hIlen, hcl]
      · intro k h1 h2
        rw [content_get _ k h1]
        simp only [content_length] at h1
        by_cases hkl : k < rb.lenght
        · rw [huntouched k hkl,
            List.getElem_append_left (show k < (content rb).length by omega),
            content_get _ k (by omega)]
        · have hj : k - rb.lenght < len := by omega
          have h3 := hwritten (k - rb.lenght) hj
          have e4 : rb.head + (rb.lenght + (k - rb.lenght)) = rb.head + k := by omega
          rw [e4] at h3
          rw [h3, List.getD_eq_getElem _ _ (by rw [hIlen]; omega),
            List.getElem_append_right (show (content rb).length ≤ k by omega)]
          simp only [hcl]
    · refine ⟨hm2, hm32, hh, ?_, ?_, ?_, ?_, ?_⟩
      · show (if rb.tail + len = rb.max_length then 0 else rb.tail + len) < rb.max_length
        split
        · omega
        · omega
      · show rb.lenght + len ≤ rb.max_length
        omega
      · show (if rb.tail + len = rb.max_length then 0 else rb.tail + len)
            = (rb.head + (rb.lenght + len)) % rb.max_length
        have e1 : rb.head + (rb.lenght + len) = (rb.head + rb.lenght) + len := by ring
        rw [e1, ← Nat.mod_add_mod, ← htc]
        split
        · rename_i hteq
          rw [hteq, Nat.mod_self]
        · rename_i hteq
          exact (Nat.mod_eq_of_lt (by omega)).symm
      · show (memcpy rb.array_addr rb.tail ((input.take len).map fun b => b % 256)).length
            = rb.max_length
        rw [memcpy_length, hdl]
      · exact memcpy_bytes _ _ _ hbytes hIbytes

/-- Auxiliary: a successful block read returns the first read_lenght bytes
of the logical content and leaves the rest, preserving
well-formedness. -/
theorem read_string_take (rb : ring_buffer) (len : Nat) (hwf : wf rb)
    (hlen : len ≤ rb.lenght) :
    (Ring_Buffer_Read_String rb len).1 = RING_BUFFER_SUCCESS ∧
    (Ring_Buffer_Read_String rb len).2.1 = (content rb).take len ∧
    content (Ring_Buffer_Read_String rb len).2.2 = (content rb).drop len ∧
    wf (Ring_Buffer_Read_String rb len).2.2 := by
  obtain ⟨hm2, hm32, hh, ht, hl, htc, hdl, hbytes⟩ := hwf
  have hm : 0 < rb.max_length := by omega
  unfold Ring_Buffer_Read_String
  rw [if_neg (show ¬ (len > rb.lenght) by omega)]
  by_cases hsp : len > rb.max_length - rb.head
  · rw [if_pos hsp]
    refine ⟨rfl, ?_, ?_, ?_⟩
    · show (rb.array_addr.drop rb.head).take (rb.max_length - rb.head) ++
          rb.array_addr.take (len - (rb.max_length - rb.head)) = (content rb).take len
      refine List.ext_getElem ?_ ?_
      · simp only [List.length_append, List.length_take, List.length_drop, hdl,
          content_length, Nat.min_self]
        omega
      · intro k h1 h2
        simp only [List.length_append, List.length_take, List.length_drop, hdl,
          Nat.min_self] at h1
        rw [List.getElem_take, content_get _ k (by rw [content_length]; omega)]
        by_cases hk : k < rb.max_length - rb.head
        · rw [List.getElem_append_left (by simp only [List.length_take, List.length_drop, hdl, Nat.min_self]; omega)]
          rw [List.getElem_take, List.getElem_drop]
          rw [Nat.mod_eq_of_lt (show rb.head + k < rb.max_length by omega),
            List.getD_eq_getElem _ _ (by rw [hdl]; omega)]
        · rw [List.getElem_append_right (by simp only [List.length_take, List.length_drop, hdl, Nat.min_self]; omega)]
          simp only [List.length_take, List.length_drop, hdl, Nat.min_self]
          rw [List.getElem_take]
          have e1 : (rb.head + k) % rb.max_length = k - (rb.max_length - rb.head) := by
            have e2 : rb.head + k
                = rb.max_length + (k - (rb.max_length - rb.head)) := by omega
            rw [e2, Nat.add_mod_left]
            exact Nat.mod_eq_of_lt (by omega)
          rw [e1, List.getD_eq_getElem _ _ (by rw [hdl]; omega)]
    · show content { head := len - (rb.max_length - rb.head), tail := rb.tail,
                     lenght := rb.lenght - len, array_addr := rb.array_addr,
                     max_length := rb.max_length } = (content rb).drop len
      refine List.ext_getElem ?_ ?_
      · simp only [content_length, List.length_drop]
      · intro k h1 h2
        rw [content_get _ k h1]
        simp only [content_length] at h1
        rw [List.getElem_drop, content_get _ (len + k)
          (by rw [content_length]; omega)]
        congr 1
        have e2 : rb.head + (len + k)
            = rb.max_length + ((len - (rb.max_length - rb.head)) + k) := by omega
        rw [e2, Nat.add_mod_left]
    · show wf { head := len - (rb.max_length - rb.head), tail := rb.tail,
                lenght := rb.lenght - len, array_addr := rb.array_addr,
                max_length := rb.max_length }
      refine ⟨hm2, hm32, ?_, ht, ?_, ?_, hdl, hbytes⟩
      · show len - (rb.max_length - rb.head) < rb.max_length
        omega
      · show rb.lenght - len ≤ rb.max_length
        omega
      · show rb.tail = (len - (rb.max_length - rb.head) + (rb.lenght - len))
            % rb.max_length
        rw [htc]
        have e3 : rb.head + rb.lenght = rb.max_length
            + (len - (rb.max_length - rb.head) + (rb.lenght - len)) := by omega
        rw [e3, Nat.add_mod_left]
  · rw [if_neg hsp]
    have hhead : (if rb.head + len = rb.max_length then 0 else rb.head + len)
        = (rb.head + len) % rb.max_length := by
      split
      · rename_i hteq
        rw [hteq, Nat.mod_self]
      · rename_i hteq
        exact (Nat.mod_eq_of_lt (by omega)).symm
    refine ⟨rfl, ?_, ?_, ?_⟩
    · show (rb.array_addr.drop rb.head).take len = (content rb).take len
      refine List.ext_getElem ?_ ?_
      · simp only [List.length_take, List.length_drop, hdl, content_length]
        omega
      · intro k h1 h2
        simp only [List.length_take, List.length_drop, hdl] at h1
        rw [List.getElem_take, List.getElem_take, List.getElem_drop,
          content_get _ k (by rw [content_length]; omega)]
        rw [Nat.mod_eq_of_lt (show rb.head + k < rb.max_length by omega),
          List.getD_eq_getElem _ _ (by rw [hdl]; omega)]
    · show content { head := if rb.head + len = rb.max_length then 0 else rb.head + len,
                     tail := rb.tail, lenght := rb.lenght - len, array_addr := rb.array_addr,
                     max_length := rb.max_length } = (content rb).drop len
      refine List.ext_getElem ?_ ?_
      · simp only [content_length, List.length_drop]
      · intro k h1 h2
        rw [content_get _ k h1]
        simp only [content_length] at h1
        rw [List.getElem_drop, content_get _ (len + k)
          (by rw [content_length]; omega)]
        simp only [hhead]
        rw [Nat.mod_add_mod]
        congr 2
        ring
    · show wf { head := if rb.head + len = rb.max_length then 0 else rb.head + len,
                tail := rb.tail, lenght := rb.lenght - len, array_addr := rb.array_addr,
                max_length := rb.max_length }
      refine ⟨hm2, hm32, ?_, ht, ?_, ?_, hdl, hbytes⟩
      · show (if rb.head + len = rb.max_length then 0 else rb.head + len) < rb.max_length
        rw [hhead]
        exact Nat.mod_lt _ hm
      · show rb.lenght - len ≤ rb.max_length
        omega
      · show rb.tail = ((if rb.head + len = rb.max_length then 0 else rb.head + len)
            + (rb.lenght - len)) % rb.max_length
        rw [hhead, Nat.mod_add_mod, htc]
        congr 1
        omega

/-- Auxiliary: reducing a byte twice changes nothing. -/
theorem mod256_mod256 (a : Nat) : a % 256 % 256 = a % 256 :=
  Nat.mod_mod_of_dvd a dvd_rfl

/-- Claim C3 (amended): for every well-formed buffer with room, the
little-endian-host insert serializes the L MOST significant bytes of the
32-bit keyword value, most significant first, i.e. byte i is
value >> (8 * (3 - i)) truncated to 8 bits; only for L = 4 is this the
big-endian encoding of the L least significant bytes the spec
describes. -/
theorem C3_insert_keyword_appends (rb : ring_buffer) (V L : Nat)
    (hwf : wf rb) (hL1 : 1 ≤ L) (hL4 : L ≤ 4)
    (hfit : rb.lenght + L ≤ rb.max_length) :
    (Ring_Buffer_Insert_Keyword rb V L).1 = RING_BUFFER_SUCCESS ∧
    content (Ring_Buffer_Insert_Keyword rb V L).2
      = content rb ++
        (List.range L).map (fun i => V % 4294967296 / 2 ^ (8 * (3 - i)) % 256) := by
  unfold Ring_Buffer_Insert_Keyword
  have hL256 : L % 256 = L := Nat.mod_eq_of_lt (by omega)
  rw [hL256]
  have hws := write_string_append rb
    [V % 4294967296 / 16777216 % 256, V % 4294967296 / 65536 % 256,
     V % 4294967296 / 256 % 256, V % 4294967296 % 256] L hwf (by simp; omega) hfit
  refine ⟨hws.1, ?_⟩
  rw [hws.2.1]
  congr 1
  interval_cases L <;> simp [List.range_succ, mod256_mod256]

/-- Claim C5 (amended): on a buffer holding no unread bytes, writing a
block of byte values and reading back the same length returns exactly
that block; with older unread bytes present the read returns those
first, so the empty-buffer restriction is necessary. -/
theorem C5_roundtrip_empty (rb : ring_buffer) (input : List Nat) (len : Nat)
    (hwf : wf rb) (hempty : rb.lenght = 0) (hin : input.length = len)
    (hbytesin : ∀ b ∈ input, b < 256) (hfit : len ≤ rb.max_length) :
    (Ring_Buffer_Write_String rb input len).1 = RING_BUFFER_SUCCESS ∧
    (Ring_Buffer_Read_String (Ring_Buffer_Write_String rb input len).2 len).1
      = RING_BUFFER_SUCCESS ∧
    (Ring_Buffer_Read_String (Ring_Buffer_Write_String rb input len).2 len).2.1
      = input := by
  obtain ⟨h1, h2, h3⟩ := write_string_append rb input len hwf (by omega) (by omega)
  have htk : input.take len = input := List.take_of_length_le (by omega)
  have hcontent0 : content rb = [] := by
    unfold content
    rw [hempty]
    rfl
  have hmap : input.map (fun b => b % 256) = input := by
    conv_rhs => rw [← List.map_id input]
    refine List.map_congr_left ?_
    intro b hb
    exact Nat.mod_eq_of_lt (hbytesin b hb)
  rw [htk, hcontent0, List.nil_append, hmap] at h2
  have hlen2 : len ≤ (Ring_Buffer_Write_String rb input len).2.lenght := by
    have := content_length (Ring_Buffer_Write_String rb input len).2
    rw [h2] at this
    omega
  obtain ⟨h4, h5, _, _⟩ := read_string_take _ len h3 hlen2
  refine ⟨h1, h4, ?_⟩
  rw [h5, h2, List.take_of_length_le (by omega)]

/-- Witness for C2 at a concrete buffer with a unique two-byte keyword
occurrence preceded by two bytes: the search returns 3. -/
theorem C2_witness :
    (Ring_Buffer_Find_Keyword
      { head := 0, tail := 4, lenght := 4, array_addr := [1, 2, 171, 205, 0, 0, 0, 0],
        max_length := 8 } 43981 2).1 = 2 + 1 :=
  C2_find_keyword_unique_occurrence
    { head := 0, tail := 4, lenght := 4, array_addr := [1, 2, 171, 205, 0, 0, 0, 0],
      max_length := 8 } 43981 2 2
    (by decide) (by decide) (by decide) (by decide) (by decide) (by decide)

/-- Witness for C3: inserting 0xCCFB22AA with length 2 into a fresh
buffer appends [0xCC, 0xFB]. -/
theorem C3_witness :
    (Ring_Buffer_Insert_Keyword
      { head := 0, tail := 0, lenght := 0, array_addr := [0, 0, 0, 0, 0, 0, 0, 0],
        max_length := 8 } 3439010474 2).1 = RING_BUFFER_SUCCESS ∧
    content (Ring_Buffer_Insert_Keyword
      { head := 0, tail := 0, lenght := 0, array_addr := [0, 0, 0, 0, 0, 0, 0, 0],
        max_length := 8 } 3439010474 2).2
      = content { head := 0, tail := 0, lenght := 0,
                  array_addr := [0, 0, 0, 0, 0, 0, 0, 0], max_length := 8 } ++
        (List.range 2).map (fun i => 3439010474 % 4294967296 / 2 ^ (8 * (3 - i)) % 256) :=
  C3_insert_keyword_appends
    { head := 0, tail := 0, lenght := 0, array_addr := [0, 0, 0, 0, 0, 0, 0, 0],
      max_length := 8 } 3439010474 2
    (by decide) (by decide) (by decide) (by decide)

/-- Witness for C5 at an empty buffer whose head and tail sit two slots
before the wrap boundary, with a three-byte block. -/
theorem C5_witness :
    (Ring_Buffer_Write_String
      { head := 2, tail := 2, lenght := 0, array_addr := [0, 0, 0, 0], max_length := 4 }
      [5, 6, 7] 3).1 = RING_BUFFER_SUCCESS ∧
    (Ring_Buffer_Read_String
      (Ring_Buffer_Write_String
        { head := 2, tail := 2, lenght := 0, array_addr := [0, 0, 0, 0], max_length := 4 }
        [5, 6, 7] 3).2 3).1 = RING_BUFFER_SUCCESS ∧
    (Ring_Buffer_Read_String
      (Ring_Buffer_Write_String
        { head := 2, tail := 2, lenght := 0, array_addr := [0, 0, 0, 0], max_length := 4 }
        [5, 6, 7] 3).2 3).2.1 = [5, 6, 7] :=
  C5_roundtrip_empty
    { head := 2, tail := 2, lenght := 0, array_addr := [0, 0, 0, 0], max_length := 4 }
    [5, 6, 7] 3 (by decide) (by decide) (by decide) (by decide) (by decide)
